import Mathlib

/-! Verification of the zapret-ng strategy-runner core: the `.bat`
strategy parser, the nftables port-specification builder, the
orchestrator lifecycle (Start / Stop), the process-manager bookkeeping,
the config-watcher debounce, and the lock discipline of the lifecycle
operations.

Strings are modelled as `List Char`; the helpers of Go's `strings`
package used by the source are embedded one by one, restricted to the
ASCII content of strategy files. -/

namespace ZapretNG

/-- Encoding used to decide equality of `Except` values in witnesses. -/
def exceptToSum {ε α : Type} : Except ε α → ε ⊕ α
  | Except.error e => Sum.inl e
  | Except.ok a => Sum.inr a

instance {ε α : Type} [DecidableEq ε] [DecidableEq α] : DecidableEq (Except ε α) := fun a b =>
  decidable_of_iff (exceptToSum a = exceptToSum b) (by cases a <;> cases b <;> simp [exceptToSum])

abbrev Str := List Char

/-- Character set of Go `unicode.IsSpace` restricted to ASCII, as used
by `strings.TrimSpace` and `strings.Fields`. -/
def isSpaceGo (c : Char) : Bool :=
  c = ' ' || c = '\t' || c = '\n' || c = '\x0b' || c = '\x0c' || c = '\r'

/-- Go `strings.TrimSpace`. -/
def trimSpace (s : Str) : Str :=
  ((s.dropWhile isSpaceGo).reverse.dropWhile isSpaceGo).reverse

/-- Go `strings.Contains`. -/
def containsSub : Str → Str → Bool
  | [], sub => sub.isEmpty
  | c :: cs, sub => sub.isPrefixOf (c :: cs) || containsSub cs sub

/-- Core scan of Go `strings.ReplaceAll`: `skip` counts pattern
characters still to be consumed after a replacement was emitted. -/
def replaceGo (pat rep : Str) : Str → Nat → Str
  | [], _ => []
  | _ :: cs, skip + 1 => replaceGo pat rep cs skip
  | c :: cs, 0 =>
    if pat.isPrefixOf (c :: cs) then rep ++ replaceGo pat rep cs (pat.length - 1)
    else c :: replaceGo pat rep cs 0

/-- Go `strings.ReplaceAll` for a nonempty pattern (every pattern used
by the source is nonempty, so the empty-pattern branch is never
taken). -/
def replaceAll (s pat rep : Str) : Str :=
  if pat.isEmpty then s else replaceGo pat rep s 0

/-- Go `strings.Split` with a single-character separator. -/
def splitChar : Str → Char → List Str
  | [], _ => [[]]
  | c :: cs, sep =>
    if c = sep then [] :: splitChar cs sep
    else
      match splitChar cs sep with
      | [] => [[c]]
      | h :: t => (c :: h) :: t

/-- Go `strings.Fields`: split on whitespace runs, dropping empty
fields. `cur` is the current field accumulated in reverse. -/
def fieldsGo : Str → Str → List Str
  | cur, [] => if cur.isEmpty then [] else [cur.reverse]
  | cur, c :: cs =>
    if isSpaceGo c then
      if cur.isEmpty then fieldsGo [] cs
      else cur.reverse :: fieldsGo [] cs
    else fieldsGo (c :: cur) cs

/-- Go `strings.Join`. -/
def joinSep (l : List Str) (sep : Str) : Str := List.intercalate sep l

/-- String literals appearing in the source, named so they can be
referred to uniformly. -/
def litDColon : Str := "::".data

def litAtEcho : Str := "@echo".data

def litRem : Str := "rem ".data

def litChcp : Str := "chcp ".data

def litCdD : Str := "cd /d ".data

def litCallService : Str := "call service.bat".data

def litSetBin : Str := "set \"BIN".data

def litSetLists : Str := "set \"LISTS".data

def litFilterDash : Str := "--filter-".data

def litHostlist : Str := "--hostlist".data

def litIpset : Str := "--ipset".data

def litDesync : Str := "--dpi-desync".data

def litBinVar : Str := "%BIN%".data

def litListsVar : Str := "%LISTS%".data

def litGF : Str := "%GameFilter%".data

def litCommaGF : Str := ",%GameFilter%".data

def litGFComma : Str := "%GameFilter%,".data

def litDblComma : Str := ",,".data

def litComma : Str := ",".data

def litCommaBrace : Str := ",\x7d".data

def litBraceR : Str := "\x7d".data

def litBraceComma : Str := "\x7b,".data

def litBraceL : Str := "\x7b".data

def litCaret : Str := "^".data

def litEscQuote : Str := "\\\"".data

def litQuote : Str := "\"".data

def litSpace : Str := " ".data

def litTcpEq : Str := "tcp=".data

def litUdpEq : Str := "udp=".data

def litNew : Str := "--new".data

def litSetOpen : Str := "\x7b ".data

def litSetClose : Str := " \x7d".data

def litCommaSpace : Str := ", ".data

def litAny : Str := "any".data

def litTcp : Str := "tcp".data

def litUdp : Str := "udp".data

def litZapretComment : Str := "Added by zapret".data

/-- Configuration the source `Parser` is constructed with (`NewParser`):
the `%BIN%` / `%LISTS%` / `%GameFilter%` substitution values and the
game-filter toggle. -/
structure ParserCfg where
  bin : Str
  lists : Str
  gameFilterPorts : Str
  gameFilter : Bool

inductive Proto where
  | tcp
  | udp
deriving DecidableEq

/-- `ParsedRule` from `nftables.go` (the parser half of that file). -/
structure ParsedRule where
  protocol : Proto
  ports : Str
  nfqwsArgs : Str
  queueNum : Nat
deriving DecidableEq

/-- `Parser.isSkipLine` from the source. -/
def isSkipLine (line : Str) : Bool :=
  let l := trimSpace line
  if l.isEmpty then true
  else if litDColon.isPrefixOf l || litAtEcho.isPrefixOf l || litRem.isPrefixOf l then true
  else if containsSub l litChcp || containsSub l litCdD || containsSub l litCallService
      || containsSub l litSetBin || containsSub l litSetLists then true
  else if !containsSub l litFilterDash && !containsSub l litHostlist
      && !containsSub l litIpset && !containsSub l litDesync then true
  else false

/-- The double-comma cleanup loop of `substituteVariables`. Fuel bounds
the iterations; each iteration with a `,,` occurrence strictly shortens
the string (see `replaceAll_length_lt`), so `s.length` iterations always
reach the loop's exit condition. -/
def collapseCommasFuel : Nat → Str → Str
  | 0, s => s
  | fuel + 1, s =>
    if containsSub s litDblComma then collapseCommasFuel fuel (replaceAll s litDblComma litComma)
    else s

def collapseCommas (s : Str) : Str := collapseCommasFuel s.length s

/-- The `,\x7d` / `\x7b,` cleanup loop of `substituteVariables`; each
iteration applies both replacements, and strictly shortens the string
while the loop condition holds. -/
def collapseBracesFuel : Nat → Str → Str
  | 0, s => s
  | fuel + 1, s =>
    if containsSub s litCommaBrace || containsSub s litBraceComma then
      collapseBracesFuel fuel (replaceAll (replaceAll s litCommaBrace litBraceR) litBraceComma litBraceL)
    else s

def collapseBraces (s : Str) : Str := collapseBracesFuel s.length s

/-- `Parser.substituteVariables` from the source: `%BIN%` / `%LISTS%`
substitution, the `%GameFilter%` handling (substitute when enabled;
remove the token and an adjacent comma and collapse `,,` and `,\x7d` /
`\x7b,` artifacts when disabled), and the final removal of every `^`
(batch line-continuation) character of the line. -/
def substituteVariables (cfg : ParserCfg) (line : Str) : Str :=
  let l1 := replaceAll line litBinVar cfg.bin
  let l2 := replaceAll l1 litListsVar cfg.lists
  let l3 :=
    if cfg.gameFilter then replaceAll l2 litGF cfg.gameFilterPorts
    else
      let a := replaceAll l2 litCommaGF []
      let b := replaceAll a litGFComma []
      let c := replaceAll b litGF []
      collapseBraces (collapseCommas c)
  replaceAll l3 litCaret []

/-- `Parser.cleanArgs` from the source. -/
def cleanArgs (args : Str) : Str :=
  let a := trimSpace args
  let b := replaceAll a litEscQuote litQuote
  joinSep (fieldsGo [] b) litSpace

/-- RE2 `\s`, the class `[\t\n\f\r ]`. -/
def isWsRe (c : Char) : Bool :=
  c = ' ' || c = '\t' || c = '\n' || c = '\x0c' || c = '\r'

/-- The character class `[0-9,-]` of the rule pattern. -/
def isPortChar (c : Char) : Bool :=
  ('0' ≤ c && c ≤ '9') || c = ',' || c = '-'

/-- The lazy tail `(.*?)(?:--new|$)` of the rule pattern
`--filter-(tcp|udp)=([0-9,-]+)\s+(.*?)(?:--new|$)`: at each position
the first alternative `--new` is preferred, then end of text, and
otherwise `.` (which does not match a newline) extends the lazy group
by one character. Returns the captured group and the remainder of the
text after the match. -/
def lazyScan : Str → Option (Str × Str)
  | [] => some ([], [])
  | c :: cs =>
    if litNew.isPrefixOf (c :: cs) then some ([], (c :: cs).drop litNew.length)
    else if c = '\n' then none
    else
      match lazyScan cs with
      | some (args, rest) => some (c :: args, rest)
      | none => none

/-- The `([0-9,-]+)\s+(.*?)(?:--new|$)` suffix of the rule pattern,
applied to the text `s2` right after `tcp=` or `udp=`: the greedy
`([0-9,-]+)` (its maximal run is forced because `[0-9,-]` and `\s` are
disjoint), the greedy `\s+` (likewise forced maximal), then the lazy
tail. -/
def matchPorts (s2 : Str) (p : Proto) : Option (Proto × Str × Str × Str) :=
  if (s2.takeWhile isPortChar).isEmpty then none
  else if ((s2.drop (s2.takeWhile isPortChar).length).takeWhile isWsRe).isEmpty then none
  else
    match lazyScan ((s2.drop (s2.takeWhile isPortChar).length).drop
        ((s2.drop (s2.takeWhile isPortChar).length).takeWhile isWsRe).length) with
    | none => none
    | some pr => some (p, s2.takeWhile isPortChar, pr.1, pr.2)

/-- One anchored attempt of the rule pattern at the head of `s`,
following RE2 leftmost-first semantics: the literal `--filter-`, the
alternation `(tcp|udp)` followed by `=`, then the ports, whitespace and
lazy tail of `matchPorts`. Returns the protocol, the ports capture, the
raw args capture, and the remainder after the match. -/
def matchAt (s : Str) : Option (Proto × Str × Str × Str) :=
  if litFilterDash.isPrefixOf s then
    if litTcpEq.isPrefixOf (s.drop litFilterDash.length) then
      matchPorts ((s.drop litFilterDash.length).drop 4) Proto.tcp
    else if litUdpEq.isPrefixOf (s.drop litFilterDash.length) then
      matchPorts ((s.drop litFilterDash.length).drop 4) Proto.udp
    else none
  else none

/-- The `FindAllStringSubmatch` scan: leftmost match, then continue
after the matched text. Fuel decreases at every step; a match consumes
at least one character (`matchAt_length_lt`), so `s.length` fuel always
completes the scan. -/
def findMatchesFuel : Nat → Str → List (Proto × Str × Str)
  | 0, _ => []
  | _, [] => []
  | fuel + 1, c :: cs =>
    match matchAt (c :: cs) with
    | some m => (m.1, m.2.1, m.2.2.1) :: findMatchesFuel fuel m.2.2.2
    | none => findMatchesFuel fuel cs

def findMatches (s : Str) : List (Proto × Str × Str) := findMatchesFuel s.length s

/-- Processing of one scanner line inside `Parser.Parse`: the skip
check, variable substitution, the regex matches, the empty-args
filtering, and `cleanArgs`. -/
def lineTriples (cfg : ParserCfg) (line : Str) : List (Proto × Str × Str) :=
  if isSkipLine line then []
  else
    (findMatches (substituteVariables cfg line)).filterMap fun m =>
      let a := trimSpace m.2.2
      if a.isEmpty then none else some (m.1, m.2.1, cleanArgs a)

/-- Queue-number assignment of `Parser.Parse`: the running counter `n`
is given to each emitted rule in emission order. -/
def assignQueues : List (Proto × Str × Str) → Nat → List ParsedRule
  | [], _ => []
  | m :: ms, n => ⟨m.1, m.2.1, m.2.2, n⟩ :: assignQueues ms (n + 1)

/-- The scanner loop of `Parser.Parse`: rules of each line are emitted
in order and the queue counter carries over across lines. -/
def parseLoop (cfg : ParserCfg) : List Str → Nat → List ParsedRule
  | [], _ => []
  | line :: rest, n =>
    let ts := lineTriples cfg line
    assignQueues ts n ++ parseLoop cfg rest (n + ts.length)

/-- All rule triples of a file, in scan order (the concatenation the
`parseLoop` counter walks). -/
def allTriples (cfg : ParserCfg) : List Str → List (Proto × Str × Str)
  | [] => []
  | l :: ls => lineTriples cfg l ++ allTriples cfg ls

inductive ParseError where
  | emptyStrategy
deriving DecidableEq

/-- `Parser.Parse` on the file contents. The file is given as its list
of scanner lines (`bufio.Scanner` lines carry no newline); the
open/read I/O failure branches are outside the model, which receives
the content directly. -/
def Parse (cfg : ParserCfg) (lines : List Str) : Except ParseError (List ParsedRule) :=
  let rules := parseLoop cfg lines 0
  if rules.isEmpty then Except.error ParseError.emptyStrategy else Except.ok rules

/-- `splitPorts` from `runner.go`: the one input port string becomes the
one-element list containing it. -/
def splitPorts (portStr : Str) : List Str := [portStr]

/-- `NftablesFirewall.buildPortSpec`: comma-split every entry and trim
each part; a single element is returned as it is and several become a
brace-enclosed anonymous set. `Except.error` stands for the error
returns of the source. -/
def buildPortSpec (ports : List Str) : Except Unit Str :=
  if ports.length = 0 then Except.error ()
  else
    let allPorts := (ports.map fun portSpec => (splitChar portSpec ',').map trimSpace).flatten
    match allPorts with
    | [] => Except.error ()
    | [x] => Except.ok x
    | x :: y :: rest => Except.ok (litSetOpen ++ joinSep (x :: y :: rest) litCommaSpace ++ litSetClose)

/-- `firewall.Rule` from `firewall.go`. -/
structure FwRule where
  protocol : Str
  ports : List Str
  queueNum : Nat
  iface : Str
  comment : Str
deriving DecidableEq

def protoStr : Proto → Str
  | Proto.tcp => litTcp
  | Proto.udp => litUdp

/-- `Runner.convertToFirewallRule` from `runner.go`. -/
def convertToFirewallRule (iface : Str) (r : ParsedRule) : FwRule :=
  { protocol := protoStr r.protocol
    ports := splitPorts r.ports
    queueNum := r.queueNum
    iface := if iface = litAny then [] else iface
    comment := litZapretComment }

/-- `parseNFQWSArgs` from `runner.go`: split on spaces while a `"`
toggles the in-quote flag (the quote character itself is dropped);
`cur` is the current token accumulated in reverse. -/
def parseNFQWSArgsAux : Str → Str → Bool → List Str
  | [], cur, _ => if cur.isEmpty then [] else [cur.reverse]
  | c :: cs, cur, inQ =>
    if c = '"' then parseNFQWSArgsAux cs cur (!inQ)
    else if c = ' ' then
      if inQ then parseNFQWSArgsAux cs (c :: cur) inQ
      else if cur.isEmpty then parseNFQWSArgsAux cs [] inQ
      else cur.reverse :: parseNFQWSArgsAux cs [] inQ
    else parseNFQWSArgsAux cs (c :: cur) inQ

def parseNFQWSArgs (s : Str) : List Str := parseNFQWSArgsAux s [] false

/-- The mutable fields of `Runner` (its `running` flag, the rule count
of the last successful parse, the `ProcessManager` tracked-process list
— represented by the queue numbers the workers were spawned for — and
whether a watcher is installed). -/
structure RunnerState where
  running : Bool
  lastParsedLen : Nat
  procs : List Nat
  watcher : Bool
deriving DecidableEq

/-- Configuration of the runner relevant to the lifecycle: the parser
configuration, the outbound interface, and the watch flag. -/
structure RunnerCfg where
  parser : ParserCfg
  iface : Str
  watch : Bool

/-- Side effects the lifecycle performs on the kernel firewall, the
worker processes, and the watcher, recorded in call order. -/
inductive Eff where
  | fwSetup
  | fwAddRule (r : FwRule)
  | spawnAttempt (q : Nat) (args : List Str)
  | procStopAll
  | fwRemoveAll
  | watcherStop
  | watcherStart
deriving DecidableEq

inductive RunnerErr where
  | alreadyRunning
  | parse (e : ParseError)
  | fwSetupFailed
  | addRuleFailed (q : Nat)
  | stopErrors
deriving DecidableEq

/-- Outcomes of the external calls (nft / spawn / watcher / teardown),
so the lifecycle control flow can be analysed under every combination
of success and failure. -/
structure Oracle where
  setupOk : Bool
  addOk : Nat → Bool
  spawnOk : Nat → Bool
  watcherOk : Bool
  watcherStopOk : Bool
  stopAllOk : Bool
  removeAllOk : Bool

/-- The `fw.AddRule` loop of `Runner.Start`: on the first failing rule
the loop stops and reports that rule's queue number; the failed call is
still recorded as an attempted effect. -/
def addRulesLoop (o : Oracle) (iface : Str) : List ParsedRule → List Eff × Option Nat
  | [] => ([], none)
  | r :: rs =>
    let fr := convertToFirewallRule iface r
    if o.addOk r.queueNum then
      let rec' := addRulesLoop o iface rs
      (Eff.fwAddRule fr :: rec'.1, rec'.2)
    else ([Eff.fwAddRule fr], some r.queueNum)

/-- The `procManager.Start` loop of `Runner.Start`: every rule is
attempted; only successful spawns are appended to the tracked list
(`ProcessManager.Start` appends `cmd.Process` only after a successful
`cmd.Start`), and failures are logged and tolerated. -/
def spawnLoop (o : Oracle) : List ParsedRule → List Eff × List Nat
  | [] => ([], [])
  | r :: rs =>
    let args := parseNFQWSArgs r.nfqwsArgs
    let rec' := spawnLoop o rs
    (Eff.spawnAttempt r.queueNum args :: rec'.1,
      if o.spawnOk r.queueNum then r.queueNum :: rec'.2 else rec'.2)

/-- `Runner.Start`: the guard on `running`, the parse (recording the
rule count), `fw.Setup`, the `AddRule` loop, the spawn loop, the
optional watcher, and finally `running := true`. Returns the state, the
effect trace, and the result. -/
def Start (cfg : RunnerCfg) (o : Oracle) (lines : List Str) (s : RunnerState) :
    RunnerState × List Eff × Except RunnerErr Unit :=
  if s.running then (s, [], Except.error RunnerErr.alreadyRunning)
  else
    match Parse cfg.parser lines with
    | Except.error e => (s, [], Except.error (RunnerErr.parse e))
    | Except.ok rules =>
      let s1 : RunnerState := { s with lastParsedLen := rules.length }
      if !o.setupOk then (s1, [Eff.fwSetup], Except.error RunnerErr.fwSetupFailed)
      else
        let added := addRulesLoop o cfg.iface rules
        match added.2 with
        | some q => (s1, Eff.fwSetup :: added.1, Except.error (RunnerErr.addRuleFailed q))
        | none =>
          let sp := spawnLoop o rules
          let s2 : RunnerState := { s1 with procs := s1.procs ++ sp.2 }
          let s3 : RunnerState :=
            if cfg.watch && o.watcherOk then { s2 with watcher := true } else s2
          let wTr : List Eff := if cfg.watch && o.watcherOk then [Eff.watcherStart] else []
          ({ s3 with running := true },
            Eff.fwSetup :: added.1 ++ sp.1 ++ wTr,
            Except.ok ())

/-- `Runner.Stop`: a no-op returning success when not running; otherwise
stop the watcher, `procManager.StopAll` (which clears the tracked list
even when individual children error), `fw.RemoveAll`, set
`running := false`, and return the accumulated errors if any. -/
def Stop (o : Oracle) (s : RunnerState) : RunnerState × List Eff × Except RunnerErr Unit :=
  if !s.running then (s, [], Except.ok ())
  else
    let wTr : List Eff := if s.watcher then [Eff.watcherStop] else []
    let anyErr := (s.watcher && !o.watcherStopOk) || !o.stopAllOk || !o.removeAllOk
    ({ s with running := false, watcher := false, procs := [] },
      wTr ++ [Eff.procStopAll, Eff.fwRemoveAll],
      if anyErr then Except.error RunnerErr.stopErrors else Except.ok ())

/-- `Runner.GetStatus`: the read-locked snapshot (the strategy-file path
and back-end name are immutable configuration strings and are omitted
from the mutable state). -/
structure Status where
  running : Bool
  activeQueues : Nat
  activeProcesses : Nat
deriving DecidableEq

def GetStatus (s : RunnerState) : Status :=
  { running := s.running
    activeQueues := s.lastParsedLen
    activeProcesses := s.procs.length }

/-- Runner states reachable from the initial state (`NewRunner` returns
`running: false` with an empty process list) through the lifecycle
operations; `Restart` is the composition of a `Stop` and a `Start` and
adds no further states. -/
inductive Reachable : RunnerState → Prop
  | init : Reachable ⟨false, 0, [], false⟩
  | start (cfg : RunnerCfg) (o : Oracle) (lines : List Str) (s : RunnerState) :
      Reachable s → Reachable (Start cfg o lines s).1
  | stop (o : Oracle) (s : RunnerState) :
      Reachable s → Reachable (Stop o s).1

/-- The queue-number projection of the spawn attempts of an effect
trace. -/
def spawnAttempts (tr : List Eff) : List Nat :=
  tr.filterMap fun e =>
    match e with
    | Eff.spawnAttempt q _ => some q
    | _ => none

/-- Atomic steps of the lifecycle methods, annotated with the lock
operations on the runner's write lock (`r.mu`), in the order the source
performs them. `work` names the step for documentation. -/
inductive LockAct where
  | lock
  | unlock
  | work (tag : Str)
deriving DecidableEq

/-- `Runner.Start` lock shape: `r.mu.Lock()` at entry, `defer
r.mu.Unlock()` at exit, all work in between. -/
def startActs : List LockAct :=
  [LockAct.lock, LockAct.work ("parse".data), LockAct.work ("fwSetup".data),
   LockAct.work ("addRules".data), LockAct.work ("spawnWorkers".data),
   LockAct.work ("startWatcher".data), LockAct.work ("setRunning".data), LockAct.unlock]

/-- `Runner.Stop` lock shape: `r.mu.Lock()` at entry, `defer
r.mu.Unlock()` at exit. -/
def stopActs : List LockAct :=
  [LockAct.lock, LockAct.work ("stopWatcher".data), LockAct.work ("stopProcesses".data),
   LockAct.work ("fwRemoveAll".data), LockAct.work ("clearRunning".data), LockAct.unlock]

/-- `Runner.Restart` lock shape on its success path: the `Stop` call
(its own critical section), `LoadStrategyConfig` and `Validate` with no
lock held, a short section assigning `r.config`, `firewall.NewFirewall`
with no lock held, a short section assigning `r.fw`, then the `Start`
call (its own critical section). -/
def restartActs : List LockAct :=
  stopActs ++
    [LockAct.work ("reloadConfig".data), LockAct.work ("validateConfig".data),
     LockAct.lock, LockAct.work ("assignConfig".data), LockAct.unlock,
     LockAct.work ("newFirewall".data),
     LockAct.lock, LockAct.work ("assignFirewall".data), LockAct.unlock] ++
    startActs

/-- Number of `work` steps executed while the lock is not held (`d` is
the current lock depth). -/
def worksOutsideLockAux (d : Nat) : List LockAct → Nat
  | [] => 0
  | LockAct.lock :: r => worksOutsideLockAux (d + 1) r
  | LockAct.unlock :: r => worksOutsideLockAux (d - 1) r
  | LockAct.work _ :: r => (if d = 0 then 1 else 0) + worksOutsideLockAux d r

def countLocks (acts : List LockAct) : Nat :=
  acts.countP fun a =>
    match a with
    | LockAct.lock => true
    | _ => false

/-- A method holds the write lock for its entire duration when it
acquires it exactly once and performs no work outside it. -/
def heldForEntireDuration (acts : List LockAct) : Bool :=
  decide (worksOutsideLockAux 0 acts = 0) && decide (countLocks acts = 1)

/-- File-system events seen by the `ConfigWatcher` loop. -/
inductive FsOp where
  | write
  | create
  | remove
  | chmod
  | rename
deriving DecidableEq

/-- The debounce window of `NewConfigWatcher`, in milliseconds. -/
def debounceMs : Nat := 1000

/-- One iteration of the `ConfigWatcher.Start` event loop, processing
the event `(t, op)` with `pending` the fire time of the armed debounce
timer, if any. Timers are modelled by their contract: `time.AfterFunc d
f` runs `f` once `d` after arming unless `Stop`ped first. If the
pending timer's fire time has passed, its callback has fired; then only
a `Write` event stops the (already fired) timer and arms a fresh
1-second timer, while every other event leaves the timer state
unchanged. Returns the callback fire times elapsed at this event and
the new pending fire time. -/
def procEvent (pending : Option Nat) (t : Nat) (op : FsOp) : List Nat × Option Nat :=
  let fired : List Nat × Option Nat :=
    match pending with
    | some p => if p ≤ t then ([p], none) else ([], some p)
    | none => ([], none)
  match op with
  | FsOp.write => (fired.1, some (t + debounceMs))
  | _ => fired

/-- All callback fire times produced by the watcher loop on a finite
event sequence (times in milliseconds, in arrival order), including the
pending timer firing after the last event. -/
def fireTimesAux (pending : Option Nat) : List (Nat × FsOp) → List Nat
  | [] => pending.toList
  | (t, op) :: rest =>
    let pr := procEvent pending t op
    pr.1 ++ fireTimesAux pr.2 rest

def fireTimes (evs : List (Nat × FsOp)) : List Nat := fireTimesAux none evs

/-- Parser configuration with the values `NewRunner` passes
(`/usr/bin`, `/etc/zapret-ng/lists`, the default game-filter port
range) and a chosen game-filter toggle. -/
def cfgWith (gf : Bool) : ParserCfg :=
  ⟨ "/usr/bin".data, "/etc/zapret-ng/lists".data, "1024-65535".data, gf⟩

def cfgDefault : ParserCfg := cfgWith false

/-- A strategy line defining two rules separated by `--new`. -/
def lineTwo : Str :=
  "--filter-tcp=80 --dpi-desync=split --new --filter-udp=443 --dpi-desync=fake".data

/-- The two rules `lineTwo` parses to. -/
def rulesTwo : List ParsedRule :=
  [⟨Proto.tcp, "80".data, "--dpi-desync=split".data, 0⟩,
   ⟨Proto.udp, "443".data, "--dpi-desync=fake".data, 1⟩]

/-- A rule written across two physical lines with a trailing `^` line
continuation. -/
def lineCont1 : Str := "--filter-tcp=443 ^".data

def lineCont2 : Str := "--dpi-desync=fake".data

/-- The strategy line of the game-filter scenario. -/
def lineGF : Str := "--filter-udp=443,%GameFilter% --dpi-desync=fake".data

def runnerCfgAny : RunnerCfg := ⟨cfgDefault, litAny, false⟩

def oracleAllOk : Oracle := ⟨true, fun _ => true, fun _ => true, true, true, true, true⟩

/-- Oracle whose only failure is the worker spawn for queue 1. -/
def oracleSpawnFail1 : Oracle :=
  ⟨true, fun _ => true, fun q => q != 1, true, true, true, true⟩

/-- The initial runner state `NewRunner` returns. -/
def state0 : RunnerState := ⟨false, 0, [], false⟩

end ZapretNG

namespace ZapretNG

theorem bool_eq_false {b : Bool} (h : ¬ b = true) : b = false := by
  cases b
  · rfl
  · exact absurd rfl h

theorem assignQueues_length (ms : List (Proto × Str × Str)) (n : Nat) :
    (assignQueues ms n).length = ms.length := by
  induction ms generalizing n with
  | nil => rfl
  | cons m ms ih => simp [assignQueues, ih]

theorem assignQueues_queueNum (ms : List (Proto × Str × Str)) (n i : Nat)
    (h : i < (assignQueues ms n).length) :
    ((assignQueues ms n).get ⟨i, h⟩).queueNum = n + i := by
  induction ms generalizing n i with
  | nil => simp [assignQueues] at h
  | cons m ms ih =>
    cases i with
    | zero => simp [assignQueues]
    | succ j =>
      have h' : j < (assignQueues ms (n + 1)).length := by
        simpa [assignQueues] using h
      have hj := ih (n + 1) j h'
      simpa [assignQueues, Nat.add_assoc, Nat.add_comm 1 j] using hj

theorem assignQueues_append (a b : List (Proto × Str × Str)) (n : Nat) :
    assignQueues (a ++ b) n = assignQueues a n ++ assignQueues b (n + a.length) := by
  induction a generalizing n with
  | nil => simp [assignQueues]
  | cons m ms ih =>
    show (⟨m.1, m.2.1, m.2.2, n⟩ : ParsedRule) :: assignQueues (ms ++ b) (n + 1) =
      (⟨m.1, m.2.1, m.2.2, n⟩ : ParsedRule) :: assignQueues ms (n + 1) ++
        assignQueues b (n + (m :: ms).length)
    rw [ih]
    have harith : n + 1 + ms.length = n + (m :: ms).length := by
      simp [List.length_cons]
      omega
    rw [harith]
    rfl

theorem parseLoop_eq_assign (cfg : ParserCfg) (lines : List Str) (n : Nat) :
    parseLoop cfg lines n = assignQueues (allTriples cfg lines) n := by
  induction lines generalizing n with
  | nil => rfl
  | cons l ls ih =>
    show assignQueues (lineTriples cfg l) n ++
        parseLoop cfg ls (n + (lineTriples cfg l).length) =
      assignQueues (lineTriples cfg l ++ allTriples cfg ls) n
    rw [assignQueues_append, ih]

theorem parseLoop_queueNum (cfg : ParserCfg) (lines : List Str) (n i : Nat)
    (h : i < (parseLoop cfg lines n).length) :
    ((parseLoop cfg lines n).get ⟨i, h⟩).queueNum = n + i := by
  have he := parseLoop_eq_assign cfg lines n
  revert h
  rw [he]
  intro h
  exact assignQueues_queueNum (allTriples cfg lines) n i h

/-- Claim C1: whenever `Parser.Parse` succeeds, the emitted rules carry
queue numbers equal to their zero-based position in the emitted list —
hence dense, unique, and exactly `0, 1, …, N-1` in emission order. -/
theorem c1_queue_numbers_dense (cfg : ParserCfg) (lines : List Str)
    (rules : List ParsedRule) (h : Parse cfg lines = Except.ok rules)
    (i : Nat) (hi : i < rules.length) :
    (rules.get ⟨i, hi⟩).queueNum = i := by
  have hr : rules = parseLoop cfg lines 0 := by
    unfold Parse at h
    by_cases he : (parseLoop cfg lines 0).isEmpty
    · simp [he] at h
    · simp [he] at h
      exact h.symm
  subst hr
  have := parseLoop_queueNum cfg lines 0 i hi
  simpa using this

/-- Witness for C1 at a concrete two-rule strategy file. -/
theorem c1_queue_numbers_dense_witness :
    Parse cfgDefault [lineTwo] = Except.ok rulesTwo ∧
    (rulesTwo.get ⟨0, by decide⟩).queueNum = 0 ∧
    (rulesTwo.get ⟨1, by decide⟩).queueNum = 1 := by
  refine ⟨by decide, ?_, ?_⟩
  · exact c1_queue_numbers_dense cfgDefault [lineTwo] rulesTwo (by decide) 0 (by decide)
  · exact c1_queue_numbers_dense cfgDefault [lineTwo] rulesTwo (by decide) 1 (by decide)

/-- Claim C2, counterexample: on a strategy file whose rule is written
across two physical lines with a trailing `^` continuation, `Parse`
extracts no rule at all — it returns the empty-strategy error — so the
claimed concatenate-then-extract behavior does not hold. -/
theorem c2_continuation_counterexample :
    Parse cfgDefault [lineCont1, lineCont2] = Except.error ParseError.emptyStrategy := by
  decide

/-- Claim C2, amended: the parser never joins continued lines; each
physical line is processed by itself and the `^` characters are merely
deleted during variable substitution of that line, after the skip
check. On the continued-rule file the first fragment keeps its ports
but has no arguments and the second fragment has no filter, so neither
yields a rule and the parse fails with the empty-strategy error,
whatever the game-filter setting. -/
theorem c2_per_line_caret_strip (gf : Bool) :
    substituteVariables (cfgWith gf) lineCont1 = "--filter-tcp=443 ".data ∧
    lineTriples (cfgWith gf) lineCont1 = [] ∧
    lineTriples (cfgWith gf) lineCont2 = [] ∧
    Parse (cfgWith gf) [lineCont1, lineCont2] = Except.error ParseError.emptyStrategy := by
  cases gf
  · exact ⟨by decide, by decide, by decide, by decide⟩
  · exact ⟨by decide, by decide, by decide, by decide⟩

/-- Claim C3: with the game filter disabled, substitution removes the
`%GameFilter%` token with its adjacent comma and collapses `,,` and
`,\x7d` / `\x7b,` artifacts; in particular the scenario line parses to
a single udp rule whose port string is exactly `443`. -/
theorem c3_gamefilter_disabled :
    substituteVariables cfgDefault lineGF = "--filter-udp=443 --dpi-desync=fake".data ∧
    Parse cfgDefault [lineGF] =
      Except.ok [⟨Proto.udp, "443".data, "--dpi-desync=fake".data, 0⟩] ∧
    substituteVariables cfgDefault ("\x7b443,%GameFilter%\x7d".data) = "\x7b443\x7d".data ∧
    substituteVariables cfgDefault ("%GameFilter%,443".data) = "443".data ∧
    substituteVariables cfgDefault ("80,%GameFilter%,443".data) = "80,443".data := by
  exact ⟨by decide, by decide, by decide, by decide, by decide⟩

theorem splitChar_no_comma (s : Str) (h : containsSub s litComma = false) :
    splitChar s ',' = [s] := by
  induction s with
  | nil => rfl
  | cons c cs ih =>
    simp only [containsSub, Bool.or_eq_false_iff] at h
    have hc : ¬ c = ',' := by
      intro hcc
      subst hcc
      simp [litComma, List.isPrefixOf] at h
    simp [splitChar, hc, ih h.2]

/-- Claim C5: the orchestrator's `splitPorts` is the identity into a
one-element list, and `buildPortSpec` returns a single comma-split
element unchanged while several elements become the brace-enclosed
anonymous set of the trimmed elements. -/
theorem c5_port_spec :
    (∀ p : Str, splitPorts p = [p]) ∧
    (∀ s : Str, containsSub s litComma = false → trimSpace s = s →
      buildPortSpec (splitPorts s) = Except.ok s) ∧
    (∀ (s e1 e2 : Str) (es : List Str), splitChar s ',' = e1 :: e2 :: es →
      buildPortSpec (splitPorts s) =
        Except.ok (litSetOpen ++ joinSep ((e1 :: e2 :: es).map trimSpace) litCommaSpace ++
          litSetClose)) := by
  refine ⟨fun p => rfl, ?_, ?_⟩
  · intro s hnc ht
    unfold buildPortSpec splitPorts
    simp [splitChar_no_comma s hnc, ht]
  · intro s e1 e2 es hsp
    unfold buildPortSpec splitPorts
    simp [hsp]

/-- Witness for C5: a single port is returned as a scalar, a mixed
comma-separated specification becomes an anonymous set. -/
theorem c5_port_spec_witness :
    buildPortSpec (splitPorts ( "443".data)) = Except.ok ( "443".data) ∧
    buildPortSpec (splitPorts ( "80,443,1024-2048".data)) =
      Except.ok ( "\x7b 80, 443, 1024-2048 \x7d".data) := by
  constructor
  · exact c5_port_spec.2.1 ( "443".data) (by decide) (by decide)
  · have h := c5_port_spec.2.2 ( "80,443,1024-2048".data) ( "80".data) ( "443".data)
      [ "1024-2048".data] (by decide)
    rw [h]
    decide

theorem addRulesLoop_all_ok (o : Oracle) (iface : Str) (rules : List ParsedRule)
    (h : ∀ r ∈ rules, o.addOk r.queueNum = true) :
    addRulesLoop o iface rules =
      (rules.map fun r => Eff.fwAddRule (convertToFirewallRule iface r), none) := by
  induction rules with
  | nil => rfl
  | cons r rs ih =>
    have hr : o.addOk r.queueNum = true := h r (by simp)
    have hrs : ∀ x ∈ rs, o.addOk x.queueNum = true := fun x hx => h x (by simp [hx])
    simp [addRulesLoop, hr, ih hrs]

theorem spawnLoop_trace (o : Oracle) (rules : List ParsedRule) :
    (spawnLoop o rules).1 =
      rules.map fun r => Eff.spawnAttempt r.queueNum (parseNFQWSArgs r.nfqwsArgs) := by
  induction rules with
  | nil => rfl
  | cons r rs ih => simp [spawnLoop, ih]

theorem spawnLoop_count (o : Oracle) (rules : List ParsedRule) :
    (spawnLoop o rules).2.length = rules.countP fun r => o.spawnOk r.queueNum := by
  induction rules with
  | nil => rfl
  | cons r rs ih =>
    by_cases hs : o.spawnOk r.queueNum = true
    · simp [spawnLoop, hs, ih, List.countP_cons]
    · simp [spawnLoop, hs, ih, List.countP_cons]

theorem countP_add_countP_not (l : List ParsedRule) (p : ParsedRule → Bool) :
    l.countP p + l.countP (fun r => !(p r)) = l.length := by
  induction l with
  | nil => rfl
  | cons r rs ih =>
    by_cases hp : p r = true <;> simp [List.countP_cons, hp, ← ih] <;> omega

theorem spawnAttempts_append (a b : List Eff) :
    spawnAttempts (a ++ b) = spawnAttempts a ++ spawnAttempts b := by
  simp [spawnAttempts, List.filterMap_append]

theorem spawnAttempts_addRules (iface : Str) (rules : List ParsedRule) :
    spawnAttempts (rules.map fun r => Eff.fwAddRule (convertToFirewallRule iface r)) = [] := by
  induction rules with
  | nil => rfl
  | cons r rs ih => simp [spawnAttempts, List.filterMap_cons, ih]

theorem spawnAttempts_spawnTrace (rules : List ParsedRule) :
    spawnAttempts
        (rules.map fun r => Eff.spawnAttempt r.queueNum (parseNFQWSArgs r.nfqwsArgs)) =
      rules.map fun r => r.queueNum := by
  induction rules with
  | nil => rfl
  | cons r rs ih => simpa [spawnAttempts, List.filterMap_cons] using ih

/-- The success path of `Runner.Start`, fully evaluated: state, effect
trace, and result. -/
theorem Start_success (cfg : RunnerCfg) (o : Oracle) (lines : List Str) (s : RunnerState)
    (rules : List ParsedRule) (hrun : s.running = false)
    (hp : Parse cfg.parser lines = Except.ok rules) (hsetup : o.setupOk = true)
    (hadd : ∀ r ∈ rules, o.addOk r.queueNum = true) :
    Start cfg o lines s =
      (⟨true, rules.length, s.procs ++ (spawnLoop o rules).2,
          if cfg.watch && o.watcherOk then true else s.watcher⟩,
        Eff.fwSetup ::
          ((rules.map fun r => Eff.fwAddRule (convertToFirewallRule cfg.iface r)) ++
            (spawnLoop o rules).1 ++
            (if cfg.watch && o.watcherOk then [Eff.watcherStart] else [])),
        Except.ok ()) := by
  obtain ⟨sr, sl, spr, sw⟩ := s
  have hsr : sr = false := hrun
  subst hsr
  unfold Start
  rw [hp]
  simp only [hsetup, addRulesLoop_all_ok o cfg.iface rules hadd]
  cases cw : cfg.watch && o.watcherOk <;> simp [cw]

/-- Claim C4: a strategy file yielding no rules (in particular the
empty file) makes `Parse` fail with the empty-strategy error, and a
`Start` on a non-running runner whose parse fails returns that error
with the state unchanged and an empty effect trace. -/
theorem c4_empty_strategy :
    (∀ cfg : ParserCfg, Parse cfg [] = Except.error ParseError.emptyStrategy) ∧
    (∀ (cfg : RunnerCfg) (o : Oracle) (lines : List Str) (s : RunnerState) (e : ParseError),
      s.running = false → Parse cfg.parser lines = Except.error e →
      Start cfg o lines s = (s, [], Except.error (RunnerErr.parse e))) := by
  constructor
  · intro cfg
    rfl
  · intro cfg o lines s e hrun hp
    unfold Start
    rw [hp]
    simp [hrun]

/-- Witness for C4 at the empty strategy file and the initial state. -/
theorem c4_empty_strategy_witness :
    state0.running = false ∧
    Parse runnerCfgAny.parser [] = Except.error ParseError.emptyStrategy ∧
    Start runnerCfgAny oracleAllOk [] state0 =
      (state0, [], Except.error (RunnerErr.parse ParseError.emptyStrategy)) := by
  refine ⟨rfl, rfl, ?_⟩
  exact c4_empty_strategy.2 runnerCfgAny oracleAllOk [] state0 ParseError.emptyStrategy rfl rfl

/-- Claim C6: when the firewall phase succeeds, a failing worker spawn
is tolerated — `Start` attempts a spawn for every rule in order,
returns success, and the tracked-process count equals the number of
successful spawns (so one failure out of N leaves N-1). -/
theorem c6_spawn_failure_tolerated (cfg : RunnerCfg) (o : Oracle) (lines : List Str)
    (s : RunnerState) (rules : List ParsedRule)
    (hrun : s.running = false) (hprocs : s.procs = [])
    (hp : Parse cfg.parser lines = Except.ok rules) (hsetup : o.setupOk = true)
    (hadd : ∀ r ∈ rules, o.addOk r.queueNum = true) :
    (Start cfg o lines s).2.2 = Except.ok () ∧
    spawnAttempts (Start cfg o lines s).2.1 = (rules.map fun r => r.queueNum) ∧
    (Start cfg o lines s).1.procs.length = (rules.countP fun r => o.spawnOk r.queueNum) ∧
    ((rules.countP fun r => !(o.spawnOk r.queueNum)) = 1 →
      (Start cfg o lines s).1.procs.length + 1 = rules.length) := by
  have hs := Start_success cfg o lines s rules hrun hp hsetup hadd
  rw [hs]
  refine ⟨rfl, ?_, ?_, ?_⟩
  · show spawnAttempts (Eff.fwSetup :: _) = _
    simp only [spawnAttempts, List.filterMap_cons]
    show spawnAttempts _ = _
    rw [spawnAttempts_append, spawnAttempts_append, spawnAttempts_addRules,
      spawnLoop_trace, spawnAttempts_spawnTrace]
    cases cw : cfg.watch && o.watcherOk <;> simp [spawnAttempts]
  · simp [hprocs, spawnLoop_count]
  · intro h1
    have h2 := countP_add_countP_not rules (fun r => o.spawnOk r.queueNum)
    simp only [hprocs, List.nil_append]
    rw [spawnLoop_count]
    omega

/-- Witness for C6: a two-rule strategy with the queue-1 spawn failing
gives a successful start, both spawn attempts, and one tracked
process. -/
theorem c6_spawn_failure_tolerated_witness :
    (Start runnerCfgAny oracleSpawnFail1 [lineTwo] state0).2.2 = Except.ok () ∧
    spawnAttempts (Start runnerCfgAny oracleSpawnFail1 [lineTwo] state0).2.1 = [0, 1] ∧
    (Start runnerCfgAny oracleSpawnFail1 [lineTwo] state0).1.procs.length + 1 = 2 := by
  have h := c6_spawn_failure_tolerated runnerCfgAny oracleSpawnFail1 [lineTwo] state0 rulesTwo
    rfl rfl (by decide) rfl (by decide)
  refine ⟨h.1, ?_, ?_⟩
  · rw [h.2.1]
    decide
  · have h4 := h.2.2.2 (by decide)
    simpa [rulesTwo] using h4

theorem stop_state (o : Oracle) (s : RunnerState) :
    (Stop o s).1 =
      if s.running then (⟨false, s.lastParsedLen, [], false⟩ : RunnerState) else s := by
  obtain ⟨sr, sl, sp, sw⟩ := s
  cases sr <;> simp [Stop]

/-- Invariant of the reachable runner states: when not running, the
tracked-process list is empty (processes are spawned only on the
success path of `Start`, which ends with `running := true`, and `Stop`
clears the list). -/
theorem reachable_stopped_no_procs (s : RunnerState) (h : Reachable s) :
    s.running = false → s.procs = [] := by
  induction h with
  | init => intro _; rfl
  | start cfg o lines s hs ih =>
    intro hrun
    by_cases hr : s.running
    · have he : (Start cfg o lines s).1 = s := by simp [Start, hr]
      rw [he] at hrun
      rw [he]
      exact absurd hrun (by simp [hr])
    · cases hp : Parse cfg.parser lines with
      | error e =>
        have he : (Start cfg o lines s).1 = s := by simp [Start, hr, hp]
        rw [he] at hrun
        rw [he]
        exact ih hrun
      | ok rules =>
        by_cases hst : o.setupOk = true
        · cases hadd : (addRulesLoop o cfg.iface rules).2 with
          | none =>
            have he : (Start cfg o lines s).1.running = true := by
              cases cw : cfg.watch && o.watcherOk <;>
                simp [Start, hr, hp, hst, hadd, cw]
            rw [he] at hrun
            cases hrun
          | some q =>
            have he : (Start cfg o lines s).1 = { s with lastParsedLen := rules.length } := by
              simp [Start, hr, hp, hst, hadd]
            rw [he] at hrun
            rw [he]
            exact ih hrun
        · have he : (Start cfg o lines s).1 = { s with lastParsedLen := rules.length } := by
            simp [Start, hr, hp, hst]
          rw [he] at hrun
          rw [he]
          exact ih hrun
  | stop o s hs ih =>
    intro hrun
    rw [stop_state]
    by_cases hr : s.running
    · simp [hr]
    · simp [hr]
      exact ih (by simpa using hr)

/-- Claim C7: `Stop` on a non-running runner is a no-op returning
success; a second `Stop` after any `Stop` is therefore such a no-op, so
the pair ends in the same state as a single `Stop`; and after any
`Stop` of a reachable state the runner is not running and the tracked
process list is empty. -/
theorem c7_stop_idempotent :
    (∀ (o : Oracle) (s : RunnerState), s.running = false →
      Stop o s = (s, [], Except.ok ())) ∧
    (∀ (o o' : Oracle) (s : RunnerState),
      Stop o' (Stop o s).1 = ((Stop o s).1, [], Except.ok ())) ∧
    (∀ (o : Oracle) (s : RunnerState), Reachable s →
      (Stop o s).1.running = false ∧ (Stop o s).1.procs = []) := by
  have hnr : ∀ (o : Oracle) (s : RunnerState), s.running = false →
      Stop o s = (s, [], Except.ok ()) := by
    intro o s hr
    unfold Stop
    simp [hr]
  refine ⟨hnr, ?_, ?_⟩
  · intro o o' s
    apply hnr
    rw [stop_state]
    by_cases hr : s.running <;> simp [hr]
  · intro o s hreach
    constructor
    · rw [stop_state]
      by_cases hr : s.running <;> simp [hr]
    · rw [stop_state]
      by_cases hr : s.running
      · simp [hr]
      · simp [hr]
        exact reachable_stopped_no_procs s hreach (by simpa using hr)

/-- Witness for C7: `Stop` at the initial state is a no-op success, and
a second `Stop` after it leaves a stopped state with no processes. -/
theorem c7_stop_idempotent_witness :
    Stop oracleAllOk state0 = (state0, [], Except.ok ()) ∧
    ((Stop oracleAllOk (Stop oracleAllOk state0).1).1.running = false ∧
      (Stop oracleAllOk (Stop oracleAllOk state0).1).1.procs = []) := by
  refine ⟨c7_stop_idempotent.1 oracleAllOk state0 rfl, ?_⟩
  exact c7_stop_idempotent.2.2 oracleAllOk (Stop oracleAllOk state0).1
    (Reachable.stop oracleAllOk state0 Reachable.init)

/-- Claim C10: `Stop` never changes the last-parsed rule count, and
after a successful `Start` followed by `Stop` the status reports
`Running = false` with `ActiveQueues` still the rule count of the last
successful parse (which is never zero) and no active processes. -/
theorem c10_stop_preserves_queue_count (cfg : RunnerCfg) (o o' : Oracle) (lines : List Str)
    (s : RunnerState) (rules : List ParsedRule)
    (hrun : s.running = false) (hp : Parse cfg.parser lines = Except.ok rules)
    (hsetup : o.setupOk = true) (hadd : ∀ r ∈ rules, o.addOk r.queueNum = true) :
    (∀ (o2 : Oracle) (s2 : RunnerState), (Stop o2 s2).1.lastParsedLen = s2.lastParsedLen) ∧
    rules ≠ [] ∧
    GetStatus (Stop o' (Start cfg o lines s).1).1 =
      { running := false, activeQueues := rules.length, activeProcesses := 0 } := by
  refine ⟨?_, ?_, ?_⟩
  · intro o2 s2
    rw [stop_state]
    by_cases hr : s2.running <;> simp [hr]
  · intro hnil
    subst hnil
    unfold Parse at hp
    by_cases hc : (parseLoop cfg.parser lines 0).isEmpty
    · simp [hc] at hp
    · simp [hc] at hp
      rw [hp] at hc
      simp at hc
  · have hs := Start_success cfg o lines s rules hrun hp hsetup hadd
    rw [hs]
    rw [stop_state]
    simp [GetStatus]

/-- Witness for C10 at the two-rule strategy. -/
theorem c10_stop_preserves_queue_count_witness :
    GetStatus (Stop oracleAllOk (Start runnerCfgAny oracleAllOk [lineTwo] state0).1).1 =
      { running := false, activeQueues := 2, activeProcesses := 0 } := by
  have h := c10_stop_preserves_queue_count runnerCfgAny oracleAllOk oracleAllOk [lineTwo]
    state0 rulesTwo rfl (by decide) rfl (by decide)
  simpa using h.2.2

theorem fireTimesAux_burst (rest : List (Nat × FsOp)) :
    ∀ t : Nat, (∀ e ∈ rest, e.2 = FsOp.write) →
    List.Chain (fun a b => a.1 ≤ b.1 ∧ b.1 < a.1 + debounceMs) (t, FsOp.write) rest →
    fireTimesAux (some (t + debounceMs)) rest =
      [(rest.getLastD (t, FsOp.write)).1 + debounceMs] := by
  induction rest with
  | nil =>
    intro t _ _
    rfl
  | cons e r ih =>
    intro t hw hchain
    obtain ⟨t', op'⟩ := e
    have hop : op' = FsOp.write := hw (t', op') (by simp)
    subst hop
    cases hchain with
    | cons hrel hch =>
      obtain ⟨hle, hlt⟩ := hrel
      have hnotfire : ¬ (t + debounceMs ≤ t') := by omega
      show (procEvent (some (t + debounceMs)) t' FsOp.write).1 ++
          fireTimesAux (procEvent (some (t + debounceMs)) t' FsOp.write).2 r = _
      simp only [procEvent, if_neg hnotfire]
      have hrec := ih t' (fun x hx => hw x (by simp [hx])) hch
      rw [List.getLastD_cons]
      simpa using hrec

/-- Claim C8: for a burst of Write events whose inter-arrival times are
under the 1-second debounce window, the watcher fires the callback
exactly once, one second after the last event of the burst; and a
sequence with no Write events fires no callback at all (non-Write
events never arm the timer). -/
theorem c8_debounce :
    (∀ (t : Nat) (rest : List (Nat × FsOp)),
      (∀ e ∈ rest, e.2 = FsOp.write) →
      List.Chain (fun a b => a.1 ≤ b.1 ∧ b.1 < a.1 + debounceMs) (t, FsOp.write) rest →
      fireTimes ((t, FsOp.write) :: rest) =
        [(rest.getLastD (t, FsOp.write)).1 + debounceMs]) ∧
    (∀ evs : List (Nat × FsOp), (∀ e ∈ evs, e.2 ≠ FsOp.write) → fireTimes evs = []) := by
  constructor
  · intro t rest hw hchain
    show (procEvent none t FsOp.write).1 ++
        fireTimesAux (procEvent none t FsOp.write).2 rest = _
    simpa [procEvent] using fireTimesAux_burst rest t hw hchain
  · intro evs
    induction evs with
    | nil =>
      intro _
      rfl
    | cons e r ih =>
      intro h
      obtain ⟨t, op⟩ := e
      have hop : op ≠ FsOp.write := h (t, op) (by simp)
      have hr : ∀ x ∈ r, x.2 ≠ FsOp.write := fun x hx => h x (by simp [hx])
      show (procEvent none t op).1 ++ fireTimesAux (procEvent none t op).2 r = []
      cases op with
      | write => exact absurd rfl hop
      | create => simpa [procEvent] using ih hr
      | remove => simpa [procEvent] using ih hr
      | chmod => simpa [procEvent] using ih hr
      | rename => simpa [procEvent] using ih hr

/-- Witness for C8: three Write events at 0, 500, and 999 milliseconds
fire the callback exactly once, at 1999 milliseconds. -/
theorem c8_debounce_witness :
    fireTimes [(0, FsOp.write), (500, FsOp.write), (999, FsOp.write)] = [1999] := by
  have h := c8_debounce.1 0 [(500, FsOp.write), (999, FsOp.write)] (by decide)
    (List.Chain.cons ⟨by decide, by decide⟩
      (List.Chain.cons ⟨by decide, by decide⟩ List.Chain.nil))
  rw [h]
  decide

/-- Claim C9, counterexample: `Restart` does not hold the runner's
write lock for its entire duration — on its lock trace, work (the
config reload and the firewall construction) runs outside any critical
section and the lock is acquired four separate times, so `Restart` is
not a single critical section. -/
theorem c9_restart_not_single_section : heldForEntireDuration restartActs = false := by
  decide

/-- Claim C9, amended: `Start` and `Stop` each hold the write lock for
their entire duration, but `Restart` runs as four separately locked
phases (`Stop`'s section, the config-assignment section, the
firewall-assignment section, `Start`'s section) with the config reload,
validation, and firewall construction performed outside the lock. -/
theorem c9_lock_discipline :
    heldForEntireDuration startActs = true ∧
    heldForEntireDuration stopActs = true ∧
    countLocks restartActs = 4 ∧
    0 < worksOutsideLockAux 0 restartActs := by
  exact ⟨by decide, by decide, by decide, by decide⟩

theorem replaceGo_skip_step (pat rep : Str) (c : Char) (cs : Str) (k : Nat) :
    replaceGo pat rep (c :: cs) (k + 1) = replaceGo pat rep cs k := by
  simp [replaceGo]

theorem replaceGo_prefix_step (pat rep : Str) (c : Char) (cs : Str)
    (hpre : pat.isPrefixOf (c :: cs) = true) :
    replaceGo pat rep (c :: cs) 0 = rep ++ replaceGo pat rep cs (pat.length - 1) := by
  simp [replaceGo, hpre]

theorem replaceGo_no_prefix_step (pat rep : Str) (c : Char) (cs : Str)
    (hpre : pat.isPrefixOf (c :: cs) = false) :
    replaceGo pat rep (c :: cs) 0 = c :: replaceGo pat rep cs 0 := by
  simp [replaceGo, hpre]

theorem replaceAll_eq_go (s pat rep : Str) (he : pat.isEmpty = false) :
    replaceAll s pat rep = replaceGo pat rep s 0 := by
  unfold replaceAll
  rw [if_neg]
  simp [he]

theorem replaceGo_length_le (pat rep : Str) (h : rep.length ≤ pat.length) :
    ∀ (s : Str) (skip : Nat), (replaceGo pat rep s skip).length ≤ s.length - skip := by
  intro s
  induction s with
  | nil =>
    intro skip
    simp [replaceGo]
  | cons c cs ih =>
    intro skip
    cases skip with
    | succ k =>
      have := ih k
      rw [replaceGo_skip_step]
      simp only [List.length_cons]
      omega
    | zero =>
      by_cases hpre : pat.isPrefixOf (c :: cs) = true
      · have hlen : pat.length ≤ cs.length + 1 := by
          have := (List.isPrefixOf_iff_prefix.mp hpre).length_le
          simpa using this
        have := ih (pat.length - 1)
        rw [replaceGo_prefix_step pat rep c cs hpre]
        simp only [List.length_append, List.length_cons]
        omega
      · have hpre' : pat.isPrefixOf (c :: cs) = false := bool_eq_false hpre
        have := ih 0
        rw [replaceGo_no_prefix_step pat rep c cs hpre']
        simp only [List.length_cons]
        omega

theorem replaceAll_length_le (s pat rep : Str) (h : rep.length ≤ pat.length) :
    (replaceAll s pat rep).length ≤ s.length := by
  by_cases he : pat.isEmpty = true
  · unfold replaceAll
    simp [he]
  · have he' : pat.isEmpty = false := by simpa using he
    rw [replaceAll_eq_go s pat rep he']
    have := replaceGo_length_le pat rep h s 0
    omega

theorem replaceGo_of_not_contains (pat rep : Str) :
    ∀ s : Str, containsSub s pat = false → replaceGo pat rep s 0 = s := by
  intro s
  induction s with
  | nil =>
    intro _
    rfl
  | cons c cs ih =>
    intro hc
    simp only [containsSub, Bool.or_eq_false_iff] at hc
    rw [replaceGo_no_prefix_step pat rep c cs hc.1, ih hc.2]

theorem replaceAll_of_not_contains (s pat rep : Str) (hc : containsSub s pat = false) :
    replaceAll s pat rep = s := by
  by_cases he : pat.isEmpty = true
  · unfold replaceAll
    simp [he]
  · have he' : pat.isEmpty = false := by simpa using he
    rw [replaceAll_eq_go s pat rep he']
    exact replaceGo_of_not_contains pat rep s hc

theorem replaceAll_length_lt (s pat rep : Str) (h : rep.length < pat.length)
    (hc : containsSub s pat = true) : (replaceAll s pat rep).length < s.length := by
  induction s with
  | nil =>
    simp only [containsSub] at hc
    have : pat = [] := by
      cases pat with
      | nil => rfl
      | cons p ps => simp [List.isEmpty] at hc
    subst this
    simp at h
  | cons c cs ih =>
    have hne : pat.isEmpty = false := by
      cases pat with
      | nil => simp at h
      | cons p ps => rfl
    rw [replaceAll_eq_go _ pat rep hne]
    by_cases hpre : pat.isPrefixOf (c :: cs) = true
    · have hlen : pat.length ≤ cs.length + 1 := by
        have := (List.isPrefixOf_iff_prefix.mp hpre).length_le
        simpa using this
      have hgo := replaceGo_length_le pat rep (Nat.le_of_lt h) cs (pat.length - 1)
      rw [replaceGo_prefix_step pat rep c cs hpre]
      simp only [List.length_append, List.length_cons]
      omega
    · have hpre' : pat.isPrefixOf (c :: cs) = false := bool_eq_false hpre
      have hcs : containsSub cs pat = true := by
        simp only [containsSub, Bool.or_eq_true] at hc
        cases hc with
        | inl hl => exact absurd hl hpre
        | inr hr => exact hr
      have hlt := ih hcs
      rw [replaceAll_eq_go _ pat rep hne] at hlt
      rw [replaceGo_no_prefix_step pat rep c cs hpre']
      simp only [List.length_cons]
      omega

theorem collapseCommasFuel_nil (f : Nat) : collapseCommasFuel f [] = [] := by
  cases f with
  | zero => rfl
  | succ k =>
    have : containsSub [] litDblComma = false := by decide
    simp [collapseCommasFuel, this]

/-- Fuel adequacy of the double-comma loop: any fuel of at least the
string's length computes the same result, so `collapseCommas` (which
uses `s.length`) is the loop's true fixed-point iteration. -/
theorem collapseCommasFuel_congr :
    ∀ (n : Nat) (s : Str) (f g : Nat), s.length ≤ n → s.length ≤ f → s.length ≤ g →
      collapseCommasFuel f s = collapseCommasFuel g s := by
  intro n
  induction n with
  | zero =>
    intro s f g hs _ _
    have : s = [] := List.length_eq_zero.mp (Nat.le_zero.mp hs)
    subst this
    rw [collapseCommasFuel_nil, collapseCommasFuel_nil]
  | succ n ih =>
    intro s f g hs hf hg
    by_cases hcon : containsSub s litDblComma = true
    · have hsne : s ≠ [] := by
        intro hnil
        subst hnil
        simp [containsSub, litDblComma] at hcon
      have hpos : 1 ≤ s.length := by
        cases s with
        | nil => exact absurd rfl hsne
        | cons a l => simp
      cases f with
      | zero => omega
      | succ f' =>
        cases g with
        | zero => omega
        | succ g' =>
          have hlt : (replaceAll s litDblComma litComma).length < s.length :=
            replaceAll_length_lt s litDblComma litComma (by decide) hcon
          simp only [collapseCommasFuel, hcon, if_true]
          exact ih (replaceAll s litDblComma litComma) f' g' (by omega) (by omega) (by omega)
    · cases f with
      | zero =>
        have : s = [] := List.length_eq_zero.mp (Nat.le_zero.mp hf)
        subst this
        rw [collapseCommasFuel_nil, collapseCommasFuel_nil]
      | succ f' =>
        cases g with
        | zero =>
          have : s = [] := List.length_eq_zero.mp (Nat.le_zero.mp hg)
          subst this
          rw [collapseCommasFuel_nil, collapseCommasFuel_nil]
        | succ g' => simp [collapseCommasFuel, hcon]

theorem braceStep_length_lt (s : Str)
    (hc : (containsSub s litCommaBrace || containsSub s litBraceComma) = true) :
    (replaceAll (replaceAll s litCommaBrace litBraceR) litBraceComma litBraceL).length <
      s.length := by
  by_cases h1 : containsSub s litCommaBrace = true
  · have hin : (replaceAll s litCommaBrace litBraceR).length < s.length :=
      replaceAll_length_lt s litCommaBrace litBraceR (by decide) h1
    have hout := replaceAll_length_le (replaceAll s litCommaBrace litBraceR)
      litBraceComma litBraceL (by decide)
    omega
  · have h2 : containsSub s litBraceComma = true := by
      simp only [Bool.or_eq_true] at hc
      cases hc with
      | inl hl => exact absurd hl h1
      | inr hr => exact hr
    have hid : replaceAll s litCommaBrace litBraceR = s :=
      replaceAll_of_not_contains s litCommaBrace litBraceR (by simpa using h1)
    rw [hid]
    exact replaceAll_length_lt s litBraceComma litBraceL (by decide) h2

theorem collapseBracesFuel_nil (f : Nat) : collapseBracesFuel f [] = [] := by
  cases f with
  | zero => rfl
  | succ k =>
    have h1 : containsSub [] litCommaBrace = false := by decide
    have h2 : containsSub [] litBraceComma = false := by decide
    simp [collapseBracesFuel, h1, h2]

/-- Fuel adequacy of the `,\x7d` / `\x7b,` loop. -/
theorem collapseBracesFuel_congr :
    ∀ (n : Nat) (s : Str) (f g : Nat), s.length ≤ n → s.length ≤ f → s.length ≤ g →
      collapseBracesFuel f s = collapseBracesFuel g s := by
  intro n
  induction n with
  | zero =>
    intro s f g hs _ _
    have : s = [] := List.length_eq_zero.mp (Nat.le_zero.mp hs)
    subst this
    rw [collapseBracesFuel_nil, collapseBracesFuel_nil]
  | succ n ih =>
    intro s f g hs hf hg
    by_cases hcon : (containsSub s litCommaBrace || containsSub s litBraceComma) = true
    · have hsne : s ≠ [] := by
        intro hnil
        subst hnil
        simp [containsSub, litCommaBrace, litBraceComma] at hcon
      have hpos : 1 ≤ s.length := by
        cases s with
        | nil => exact absurd rfl hsne
        | cons a l => simp
      cases f with
      | zero => omega
      | succ f' =>
        cases g with
        | zero => omega
        | succ g' =>
          have hlt := braceStep_length_lt s hcon
          simp only [collapseBracesFuel, hcon, if_true]
          exact ih _ f' g' (by omega) (by omega) (by omega)
    · cases f with
      | zero =>
        have : s = [] := List.length_eq_zero.mp (Nat.le_zero.mp hf)
        subst this
        rw [collapseBracesFuel_nil, collapseBracesFuel_nil]
      | succ f' =>
        cases g with
        | zero =>
          have : s = [] := List.length_eq_zero.mp (Nat.le_zero.mp hg)
          subst this
          rw [collapseBracesFuel_nil, collapseBracesFuel_nil]
        | succ g' => simp [collapseBracesFuel, hcon]

theorem lazyScan_new_step (c : Char) (cs : Str)
    (hn : litNew.isPrefixOf (c :: cs) = true) :
    lazyScan (c :: cs) = some ([], (c :: cs).drop litNew.length) := by
  simp [lazyScan, hn]

theorem lazyScan_nl_step (c : Char) (cs : Str)
    (hn : litNew.isPrefixOf (c :: cs) = false) (hc : c = '\n') :
    lazyScan (c :: cs) = none := by
  subst hc
  simp [lazyScan, hn]

theorem lazyScan_cons_some (c : Char) (cs a r : Str)
    (hn : litNew.isPrefixOf (c :: cs) = false) (hc : ¬ c = '\n')
    (h : lazyScan cs = some (a, r)) :
    lazyScan (c :: cs) = some (c :: a, r) := by
  simp [lazyScan, hn, hc, h]

theorem lazyScan_cons_none (c : Char) (cs : Str)
    (hn : litNew.isPrefixOf (c :: cs) = false) (hc : ¬ c = '\n')
    (h : lazyScan cs = none) :
    lazyScan (c :: cs) = none := by
  simp [lazyScan, hn, hc, h]

theorem lazyScan_rest_le (s : Str) (pr : Str × Str) (h : lazyScan s = some pr) :
    pr.2.length ≤ s.length := by
  induction s generalizing pr with
  | nil =>
    simp only [lazyScan] at h
    cases h
    simp
  | cons c cs ih =>
    by_cases hn : litNew.isPrefixOf (c :: cs) = true
    · rw [lazyScan_new_step c cs hn] at h
      cases h
      simp [List.length_drop]
    · have hn' := bool_eq_false hn
      by_cases hnl : c = '\n'
      · rw [lazyScan_nl_step c cs hn' hnl] at h
        cases h
      · cases hs : lazyScan cs with
        | none =>
          rw [lazyScan_cons_none c cs hn' hnl hs] at h
          cases h
        | some pr' =>
          obtain ⟨a, r⟩ := pr'
          rw [lazyScan_cons_some c cs a r hn' hnl hs] at h
          cases h
          have := ih (a, r) hs
          simp at this ⊢
          omega

theorem matchPorts_rest_lt (s2 : Str) (p : Proto) (m : Proto × Str × Str × Str)
    (h : matchPorts s2 p = some m) : m.2.2.2.length < s2.length := by
  unfold matchPorts at h
  split at h
  · exact Option.noConfusion h
  · next hpe =>
    split at h
    · exact Option.noConfusion h
    · next hwe =>
      split at h
      · exact Option.noConfusion h
      · next pr hls =>
        cases h
        have hr := lazyScan_rest_le _ pr hls
        have hpne : s2.takeWhile isPortChar ≠ [] := by
          intro hnil
          rw [hnil] at hpe
          exact hpe rfl
        have hwne : (s2.drop (s2.takeWhile isPortChar).length).takeWhile isWsRe ≠ [] := by
          intro hnil
          rw [hnil] at hwe
          exact hwe rfl
        have hp1 : 0 < (s2.takeWhile isPortChar).length := List.length_pos.mpr hpne
        have hw1 : 0 <
            ((s2.drop (s2.takeWhile isPortChar).length).takeWhile isWsRe).length :=
          List.length_pos.mpr hwne
        have hp2 : (s2.takeWhile isPortChar).length ≤ s2.length :=
          (List.takeWhile_sublist isPortChar).length_le
        have hw2 : ((s2.drop (s2.takeWhile isPortChar).length).takeWhile isWsRe).length ≤
            (s2.drop (s2.takeWhile isPortChar).length).length :=
          (List.takeWhile_sublist isWsRe).length_le
        simp only [List.length_drop] at hr hw2 ⊢
        omega

theorem matchAt_rest_lt (s : Str) (m : Proto × Str × Str × Str) (h : matchAt s = some m) :
    m.2.2.2.length < s.length := by
  unfold matchAt at h
  split at h
  · split at h
    · have hlt := matchPorts_rest_lt _ Proto.tcp m h
      have hle : ((s.drop litFilterDash.length).drop 4).length ≤ s.length := by
        simp [List.length_drop]
      omega
    · split at h
      · have hlt := matchPorts_rest_lt _ Proto.udp m h
        have hle : ((s.drop litFilterDash.length).drop 4).length ≤ s.length := by
          simp [List.length_drop]
        omega
      · exact Option.noConfusion h
  · exact Option.noConfusion h

theorem findMatchesFuel_nil (f : Nat) : findMatchesFuel f [] = [] := by
  cases f <;> rfl

/-- Fuel adequacy of the match scan: any fuel of at least the string's
length computes the same match list, because every match consumes at
least one character. -/
theorem findMatchesFuel_congr :
    ∀ (n : Nat) (s : Str) (f g : Nat), s.length ≤ n → s.length ≤ f → s.length ≤ g →
      findMatchesFuel f s = findMatchesFuel g s := by
  intro n
  induction n with
  | zero =>
    intro s f g hs _ _
    have : s = [] := List.length_eq_zero.mp (Nat.le_zero.mp hs)
    subst this
    rw [findMatchesFuel_nil, findMatchesFuel_nil]
  | succ n ih =>
    intro s f g hs hf hg
    cases s with
    | nil => rw [findMatchesFuel_nil, findMatchesFuel_nil]
    | cons c cs =>
      cases f with
      | zero => simp at hf
      | succ f' =>
        cases g with
        | zero => simp at hg
        | succ g' =>
          cases hm : matchAt (c :: cs) with
          | some m =>
            have hlt := matchAt_rest_lt (c :: cs) m hm
            simp only [findMatchesFuel, hm]
            have hlen : (c :: cs).length = cs.length + 1 := rfl
            rw [ih m.2.2.2 f' g' (by omega) (by omega) (by omega)]
          | none =>
            simp only [findMatchesFuel, hm]
            have hlen : (c :: cs).length = cs.length + 1 := rfl
            rw [ih cs f' g' (by omega) (by omega) (by omega)]

end ZapretNG
